import Mathlib

set_option maxHeartbeats 1000000

/-!
Shallow embedding of the addsynth synthesizer core (SolarLiner/addsynth).
Machine `f32` arithmetic is modelled by exact rationals (and, where the spec
side of a claim needs transcendental functions, by reals); the external
parameter smoother from the host framework is modelled from the spec.
-/

namespace AddSynth

/-- Truncation toward zero of a rational, matching Rust float-to-int truncation
as used by the floating-point remainder. -/
def rtrunc (q : ℚ) : ℤ := if 0 ≤ q then ⌊q⌋ else ⌈q⌉

/-- Rust floating-point remainder `a % b = a - b * trunc (a / b)` (sign of the
dividend). -/
def rustRem (a b : ℚ) : ℚ := a - b * (rtrunc (a / b) : ℚ)

/-- One SIMD bank of eight phasors (`Phasor8`, src/phasor.rs); each lane holds
a frequency, a sample rate and a normalized phase. -/
structure Phasor8 where
  hz : Fin 8 → ℚ
  samplerate : Fin 8 → ℚ
  phase : Fin 8 → ℚ

namespace Phasor8

/-- `Phasor8::step`: the per-sample increment `hz / samplerate`, lanewise. -/
def step (p : Phasor8) : Fin 8 → ℚ := fun i => p.hz i / p.samplerate i

/-- `Phasor8::set_phase`: lanes at or below zero are folded up by one, then
every lane is reduced with the Rust `% 1` remainder; returns the new phase. -/
def set_phase (p : Phasor8) (ph : Fin 8 → ℚ) : (Fin 8 → ℚ) × Phasor8 :=
  let ph' : Fin 8 → ℚ := fun i => if ph i ≤ 0 then rustRem (ph i + 1) 1 else rustRem (ph i) 1
  (ph', { p with phase := ph' })

/-- `Phasor8::inc`: advance each lane by `amt × step` and wrap via `set_phase`. -/
def inc (p : Phasor8) (amt : Fin 8 → ℕ) : (Fin 8 → ℚ) × Phasor8 :=
  p.set_phase (fun i => p.phase i + (amt i : ℚ) * p.step i)

end Phasor8

/-- Additive oscillator state (src/oscillator.rs): 128 SIMD banks of 8 lanes of
(gain, phasor) pairs, 1024 lanes in total. -/
structure Oscillator where
  phase_offset : ℚ
  samplerate : ℚ
  gains : Fin 128 → Fin 8 → ℚ
  phasors : Fin 128 → Phasor8

namespace Oscillator

/-- `Oscillator::new`: all gains zero, all phasors at frequency 0, phase 0. -/
def new (sr : ℚ) : Oscillator :=
  { phase_offset := 0
    samplerate := sr
    gains := fun _ _ => 0
    phasors := fun _ => { hz := fun _ => 0, samplerate := fun _ => sr, phase := fun _ => 0 } }

/-- `Oscillator::from_bode`: fill the 1024 lanes from a gain/frequency law. -/
def from_bode (sr : ℚ) (f : ℕ → ℚ × ℚ) : Oscillator :=
  { new sr with
    gains := fun i j => (f (8 * i.val + j.val)).1
    phasors := fun i =>
      { hz := fun j => (f (8 * i.val + j.val)).2
        samplerate := fun _ => sr
        phase := fun _ => 0 } }

/-- `Oscillator::sine`: lane 0 of bank 0 gets gain 1 and the fundamental. -/
def sine (sr hz : ℚ) : Oscillator :=
  let base := new sr
  { base with
    gains := Function.update base.gains 0 (fun j => if j = 0 then 1 else 0)
    phasors := Function.update base.phasors 0
      { base.phasors 0 with hz := fun j => if j = 0 then hz else 0 } }

/-- `Oscillator::triangle`: harmonic series with gains `1/i²`, frequencies
`hz·(2i−1)` for 1-indexed `i`. -/
def triangle (sr hz : ℚ) : Oscillator :=
  from_bode sr fun i => ((((i + 1 : ℕ) : ℚ) ^ 2)⁻¹, hz * (2 * ((i + 1 : ℕ) : ℚ) - 1))

/-- `Oscillator::square`: gains `1/(2i−1)`, frequencies `hz·(2i−1)`. -/
def square (sr hz : ℚ) : Oscillator :=
  from_bode sr fun i => ((2 * ((i + 1 : ℕ) : ℚ) - 1)⁻¹, hz * (2 * ((i + 1 : ℕ) : ℚ) - 1))

/-- `Oscillator::saw`: gains `1/(1+i)`, frequencies `hz·i` for 0-indexed `i`. -/
def saw (sr hz : ℚ) : Oscillator :=
  from_bode sr fun i => ((1 + (i : ℚ))⁻¹, hz * (i : ℚ))

end Oscillator

/-- `poly_blep` (src/oscillator.rs): polynomial band-limited step residual. -/
def poly_blep (t dt : ℚ) : ℚ :=
  if t < dt then
    let u := t / dt
    u + u - u * u - 1
  else if t > 1 - dt then
    let u := (t - 1) / dt
    u + u + u * u + 1
  else 0

namespace Oscillator

/-- `Oscillator::sample`, the live implementation: advance bank 0 by one step
and return lane 0's naive sawtooth `2·phase − 1` minus the polyBLEP residual.
(The additive sum-of-partials implementation in the source is compiled out
behind `#[cfg(never)]`.) -/
def sample (o : Oscillator) : ℚ × Oscillator :=
  let r := (o.phasors 0).inc (fun _ => 1)
  let phase := r.1 0
  (phase * 2 - 1 - poly_blep phase (r.2.step 0),
   { o with phasors := Function.update o.phasors 0 r.2 })

/-- The oscillator output formula as the spec's contract states it (for claim
C1): the sum over all lanes of `gain × sin(2π × phase advanced one step)`, with
lanes whose frequency is at or above Nyquist excluded, divided by the fixed
normalization factor 2. The advanced phase wraps into `[0,1)`. -/
noncomputable def claimedSample (o : Oscillator) : ℝ :=
  (∑ i : Fin 128, ∑ j : Fin 8,
    if (o.phasors i).hz j < o.samplerate / 2 then
      ((o.gains i j : ℚ) : ℝ) *
        Real.sin (2 * Real.pi *
          ((Int.fract ((o.phasors i).phase j +
              (o.phasors i).hz j / (o.phasors i).samplerate j) : ℚ) : ℝ))
    else 0) / 2

end Oscillator

/-! ### 4-vectors and 4×4 matrices (nalgebra `SVector<f32,4>` / `SMatrix<f32,4,4>`) -/

/-- A 4-vector of scalars, {a0, a1, a2, a3} standing for nalgebra indices 0..3. -/
structure Y4 (K : Type) where
  a0 : K
  a1 : K
  a2 : K
  a3 : K
  deriving DecidableEq

/-- A 4×4 matrix of scalars, row-major fields `mRC`. -/
structure Mat4 (K : Type) where
  m00 : K
  m01 : K
  m02 : K
  m03 : K
  m10 : K
  m11 : K
  m12 : K
  m13 : K
  m20 : K
  m21 : K
  m22 : K
  m23 : K
  m30 : K
  m31 : K
  m32 : K
  m33 : K
  deriving DecidableEq

namespace Y4

variable {K : Type} [Field K]

/-- Zero vector. -/
def zero (K : Type) [Field K] : Y4 K := ⟨0, 0, 0, 0⟩

/-- Componentwise subtraction. -/
def sub (x y : Y4 K) : Y4 K := ⟨x.a0 - y.a0, x.a1 - y.a1, x.a2 - y.a2, x.a3 - y.a3⟩

/-- Componentwise addition. -/
def add (x y : Y4 K) : Y4 K := ⟨x.a0 + y.a0, x.a1 + y.a1, x.a2 + y.a2, x.a3 + y.a3⟩

/-- Scalar multiple. -/
def smul (c : K) (x : Y4 K) : Y4 K := ⟨c * x.a0, c * x.a1, c * x.a2, c * x.a3⟩

/-- Map a scalar function over the components. -/
def map (f : K → K) (x : Y4 K) : Y4 K := ⟨f x.a0, f x.a1, f x.a2, f x.a3⟩

/-- Squared Euclidean norm (`magnitude_squared`). -/
def magSq (x : Y4 K) : K := x.a0 * x.a0 + x.a1 * x.a1 + x.a2 * x.a2 + x.a3 * x.a3

end Y4

namespace Mat4

variable {K : Type} [Field K]

/-- Matrix–vector product. -/
def mulVec (m : Mat4 K) (v : Y4 K) : Y4 K :=
  ⟨m.m00 * v.a0 + m.m01 * v.a1 + m.m02 * v.a2 + m.m03 * v.a3,
   m.m10 * v.a0 + m.m11 * v.a1 + m.m12 * v.a2 + m.m13 * v.a3,
   m.m20 * v.a0 + m.m21 * v.a1 + m.m22 * v.a2 + m.m23 * v.a3,
   m.m30 * v.a0 + m.m31 * v.a1 + m.m32 * v.a2 + m.m33 * v.a3⟩

/-- Determinant of a 3×3 matrix given row-major. -/
def det3 (a b c d e f g h i : K) : K :=
  a * (e * i - f * h) - b * (d * i - f * g) + c * (d * h - e * g)

/-- Determinant by cofactor expansion along the first row. -/
def det (m : Mat4 K) : K :=
  m.m00 * det3 m.m11 m.m12 m.m13 m.m21 m.m22 m.m23 m.m31 m.m32 m.m33
    - m.m01 * det3 m.m10 m.m12 m.m13 m.m20 m.m22 m.m23 m.m30 m.m32 m.m33
    + m.m02 * det3 m.m10 m.m11 m.m13 m.m20 m.m21 m.m23 m.m30 m.m31 m.m33
    - m.m03 * det3 m.m10 m.m11 m.m12 m.m20 m.m21 m.m22 m.m30 m.m31 m.m32

/-- Cofactor-based inverse scaled by `1/det` (entries of the adjugate divided
by the determinant), mirroring nalgebra's closed-form 4×4 inversion. -/
def invUnchecked (m : Mat4 K) : Mat4 K :=
  let d := m.det
  ⟨(det3 m.m11 m.m12 m.m13 m.m21 m.m22 m.m23 m.m31 m.m32 m.m33) / d,
   (-det3 m.m01 m.m02 m.m03 m.m21 m.m22 m.m23 m.m31 m.m32 m.m33) / d,
   (det3 m.m01 m.m02 m.m03 m.m11 m.m12 m.m13 m.m31 m.m32 m.m33) / d,
   (-det3 m.m01 m.m02 m.m03 m.m11 m.m12 m.m13 m.m21 m.m22 m.m23) / d,
   (-det3 m.m10 m.m12 m.m13 m.m20 m.m22 m.m23 m.m30 m.m32 m.m33) / d,
   (det3 m.m00 m.m02 m.m03 m.m20 m.m22 m.m23 m.m30 m.m32 m.m33) / d,
   (-det3 m.m00 m.m02 m.m03 m.m10 m.m12 m.m13 m.m30 m.m32 m.m33) / d,
   (det3 m.m00 m.m02 m.m03 m.m10 m.m12 m.m13 m.m20 m.m22 m.m23) / d,
   (det3 m.m10 m.m11 m.m13 m.m20 m.m21 m.m23 m.m30 m.m31 m.m33) / d,
   (-det3 m.m00 m.m01 m.m03 m.m20 m.m21 m.m23 m.m30 m.m31 m.m33) / d,
   (det3 m.m00 m.m01 m.m03 m.m10 m.m11 m.m13 m.m30 m.m31 m.m33) / d,
   (-det3 m.m00 m.m01 m.m03 m.m10 m.m11 m.m13 m.m20 m.m21 m.m23) / d,
   (-det3 m.m10 m.m11 m.m12 m.m20 m.m21 m.m22 m.m30 m.m31 m.m32) / d,
   (det3 m.m00 m.m01 m.m02 m.m20 m.m21 m.m22 m.m30 m.m31 m.m32) / d,
   (-det3 m.m00 m.m01 m.m02 m.m10 m.m11 m.m12 m.m30 m.m31 m.m32) / d,
   (det3 m.m00 m.m01 m.m02 m.m10 m.m11 m.m12 m.m20 m.m21 m.m22) / d⟩

/-- nalgebra `try_inverse`: `none` exactly when the determinant vanishes. -/
def try_inverse [DecidableEq K] (m : Mat4 K) : Option (Mat4 K) :=
  if m.det = 0 then none else some m.invUnchecked

end Mat4

/-! ### The ladder filter's implicit equation and Newton-Raphson solve
(src/lpf.rs `Ladder`/`Phi`, src/math.rs `nr_step`). The per-stage saturator
`sat` (`tanh` in the source) and its derivative `satd` are passed as explicit
function parameters, abstracting the transcendental `f32::tanh`. -/

/-- The scalar field `Phi` of src/lpf.rs: input `x`, cutoff gain `g`,
resonance `k`, previous state `s`. -/
structure Phi (K : Type) where
  x : K
  g : K
  k : K
  s : Y4 K

namespace Phi

variable {K : Type} [Field K]

/-- `Phi::v`: the linear stage-coupling vector. -/
def v (φ : Phi K) (y : Y4 K) : Y4 K :=
  ⟨φ.x - φ.k * y.a3 - y.a0, y.a0 - y.a1, y.a1 - y.a2, y.a2 - y.a3⟩

/-- `Phi::eval_u`: saturated coupling scaled by `g`. -/
def eval_u (sat : K → K) (φ : Phi K) (y : Y4 K) : Y4 K :=
  Y4.smul φ.g ((φ.v y).map sat)

/-- `ScalarField::eval` for `Phi`: `F(y) = g·sat(v(y)) + s − y`. -/
def eval (sat : K → K) (φ : Phi K) (y : Y4 K) : Y4 K :=
  Y4.sub (Y4.add (φ.eval_u sat y) φ.s) y

/-- `ScalarField::jacobian` for `Phi`: the analytic Jacobian
`g·M(satd(v(y))) − I` with the ladder coupling matrix `M`. -/
def jacobian (satd : K → K) (φ : Phi K) (y : Y4 K) : Mat4 K :=
  let w := (φ.v y).map satd
  ⟨-w.a0 * φ.g - 1, 0, 0, -φ.k * w.a0 * φ.g,
   w.a1 * φ.g, -w.a1 * φ.g - 1, 0, 0,
   0, w.a2 * φ.g, -w.a2 * φ.g - 1, 0,
   0, 0, w.a3 * φ.g, -w.a3 * φ.g - 1⟩

end Phi

/-- `nr_step` (src/math.rs): invert the Jacobian at `y`; `none` when it is
singular, otherwise the Newton step `J⁻¹·F(y)`. -/
def nr_step {K : Type} [Field K] [DecidableEq K]
    (sat satd : K → K) (φ : Phi K) (y : Y4 K) : Option (Y4 K) :=
  match (φ.jacobian satd y).try_inverse with
  | none => none
  | some ij => some (ij.mulVec (φ.eval sat y))

/-- The bounded Newton-Raphson loop of `Ladder::process_sample`: up to `fuel`
iterations of `y ← y − step`, aborting with `y` unchanged when the Jacobian is
singular, stopping early when the squared step norm drops below `1e-4`.
Returns the final iterate together with the number of steps actually taken. -/
def nrLoop {K : Type} [LinearOrderedField K] [DecidableEq K]
    (sat satd : K → K) (φ : Phi K) : ℕ → Y4 K → Y4 K × ℕ
  | 0, y => (y, 0)
  | n + 1, y =>
    match nr_step sat satd φ y with
    | none => (y, 0)
    | some step =>
      let y' := Y4.sub y step
      if step.magSq < 1 / 10000 then (y', 1)
      else
        let r := nrLoop sat satd φ n y'
        (r.1, r.2 + 1)

/-- The nonlinear ladder filter state (src/lpf.rs `Ladder`). -/
structure Ladder (K : Type) where
  samplerate : K
  u : Y4 K
  g : K
  y : Y4 K
  k : K
  fb : K

namespace Ladder

variable {K : Type}

/-- `Ladder::new`. The constant `pi` models `std::f32::consts::PI`. -/
def new [Field K] (pi : K) (samplerate fc q : K) : Ladder K :=
  { samplerate := samplerate
    u := Y4.zero K
    g := pi * fc / samplerate
    y := Y4.zero K
    k := q
    fb := 0 }

/-- `Ladder::set_fc`: `g = π · min(fc, samplerate) / samplerate` — the cutoff
is clamped at the full sample rate. -/
def set_fc [LinearOrderedField K] (pi : K) (l : Ladder K) (fc : K) : Ladder K :=
  { l with g := pi * min fc l.samplerate / l.samplerate }

/-- `Ladder::set_resonance`. -/
def set_resonance (l : Ladder K) (q : K) : Ladder K := { l with k := q }

/-- `Ladder::process_sample`: solve the implicit equation with at most 4
Newton-Raphson iterations warm-started from the previous state, commit the
iterate and return the last stage value `y[3]`. -/
def process_sample [LinearOrderedField K] [DecidableEq K]
    (sat satd : K → K) (l : Ladder K) (x : K) : K × Ladder K :=
  let φ : Phi K := ⟨x, l.g, l.k, l.y⟩
  let y' := (nrLoop sat satd φ 4 l.y).1
  (y'.a3, { l with y := y', u := φ.eval_u sat y' })

end Ladder

/-! ### The host parameter smoother.
Modelled from the spec: the smoothing/interpolation primitive is an external
collaborator ("ramps a value toward a target over a given time constant,
producing one sample per call, exposing how many steps remain before the ramp
completes"; exponential style: the value moves a fixed fraction of the
remaining distance per sample, parameterized by a millisecond time constant
and the sample rate; completion is the internal step counter reaching zero). -/

/-- Modelled from the spec: external exponential parameter smoother state
(the host framework's `Smoother<f32>`), carrying its millisecond time constant
(`SmoothingStyle::Exponential`), current value, target, and remaining steps. -/
structure Smoother where
  tc : ℚ
  current : ℚ
  target : ℚ
  steps_left : ℕ
  deriving DecidableEq

namespace Smoother

/-- Modelled from the spec: the number of smoothing steps a ramp takes, one
per sample over the millisecond time constant at the given sample rate. -/
def numSteps (tc samplerate : ℚ) : ℕ := (⌈tc * samplerate / 1000⌉).toNat

/-- Modelled from the spec: a fresh smoother with the given time constant. -/
def new (tc : ℚ) : Smoother := { tc := tc, current := 0, target := 0, steps_left := 0 }

/-- Modelled from the spec: `reset` jumps the smoother to a value immediately. -/
def reset (s : Smoother) (v : ℚ) : Smoother :=
  { s with current := v, target := v, steps_left := 0 }

/-- Modelled from the spec: `set_target` re-arms the ramp toward a new target,
with the step count derived from the current time constant and sample rate. -/
def set_target (s : Smoother) (samplerate t : ℚ) : Smoother :=
  { s with target := t, steps_left := numSteps s.tc samplerate }

/-- Modelled from the spec: `previous_value` reads the current value. -/
def previous_value (s : Smoother) : ℚ := s.current

/-- Modelled from the spec: `next` produces one interpolated value per call;
past completion it sits at the target, otherwise it moves a fixed fraction of
the remaining distance and decrements the step counter. -/
def next (s : Smoother) : ℚ × Smoother :=
  if s.steps_left = 0 then (s.target, { s with current := s.target })
  else
    let v := s.current + (s.target - s.current) / 2
    (v, { s with current := v, steps_left := s.steps_left - 1 })

end Smoother

/-! ### The ADSR envelope state machine (src/adsr.rs). -/

/-- `AdsrState` (src/adsr.rs): Attack, Decay, Sustain, Release, Released. -/
inductive AdsrState where
  | A
  | D
  | S
  | R
  | Released
  deriving DecidableEq

/-- The current values of the four host ADSR parameters, read afresh at every
call (the source reads them through a shared `Arc<AdsrParams>`). -/
structure AdsrParams where
  a : ℚ
  d : ℚ
  s : ℚ
  r : ℚ
  deriving DecidableEq

/-- `Adsr` (src/adsr.rs): envelope state machine driving one smoothed scalar. -/
structure Adsr where
  smoother : Smoother
  state : AdsrState
  samplerate : ℚ
  deriving DecidableEq

namespace Adsr

/-- `Adsr::new`: start in Attack, ramping from 0 toward 1 with time constant
`a`. -/
def new (samplerate : ℚ) (p : AdsrParams) : Adsr :=
  { smoother := ((Smoother.new p.a).reset 0).set_target samplerate 1
    state := AdsrState.A
    samplerate := samplerate }

/-- `Adsr::value`. -/
def value (e : Adsr) : ℚ := e.smoother.previous_value

/-- The state-transition half of `Adsr::next`, before the smoother produces
its sample: when the current ramp has finished (steps-left = 0) Attack starts
the Decay ramp from 1 toward the sustain level with time constant `d`, Decay
falls into Sustain, Release falls into Released; while the ramp is still in
progress the time constant is refreshed from the current parameter value (and
Decay also re-aims at the current sustain level). -/
def transition (p : AdsrParams) (e : Adsr) : Adsr :=
  if e.smoother.steps_left = 0 then
    match e.state with
    | AdsrState.A =>
        { e with
          state := AdsrState.D
          smoother := (((Smoother.new p.d).reset 1).set_target e.samplerate p.s) }
    | AdsrState.D => { e with state := AdsrState.S }
    | AdsrState.R => { e with state := AdsrState.Released }
    | _ => e
  else
    match e.state with
    | AdsrState.A => { e with smoother := { e.smoother with tc := p.a } }
    | AdsrState.D =>
        { e with smoother := ({ e.smoother with tc := p.d }).set_target e.samplerate p.s }
    | AdsrState.R => { e with smoother := { e.smoother with tc := p.r } }
    | _ => e

/-- `Adsr::next`: perform the transition step, then pull one smoother sample. -/
def next (p : AdsrParams) (e : Adsr) : ℚ × Adsr :=
  let e' := transition p e
  let r := e'.smoother.next
  (r.1, { e' with smoother := r.2 })

/-- `Adsr::release`: restart a ramp from the current smoothed value toward 0
with the release time constant, and enter the Release state. -/
def release (p : AdsrParams) (e : Adsr) : Adsr :=
  { e with
    state := AdsrState.R
    smoother := (((Smoother.new p.r).reset e.smoother.previous_value).set_target e.samplerate 0) }

/-- `Adsr::releasing`. -/
def releasing (e : Adsr) : Bool := e.state = AdsrState.R

/-- `Adsr::active`: false once Released, or immediately in Sustain when the
sustain level parameter is exactly 0. -/
def active (p : AdsrParams) (e : Adsr) : Bool :=
  match e.state with
  | AdsrState.Released => false
  | AdsrState.S => if p.s = 0 then false else true
  | _ => true

/-- Iterate `Adsr::next` (state part) a number of times with fixed params. -/
def iterateNext (p : AdsrParams) : ℕ → Adsr → Adsr
  | 0, e => e
  | n + 1, e => iterateNext p n (next p e).2

end Adsr

/-! ### The Voice (src/voice.rs). -/

/-- The current values of the smoothed host voice parameters: each field is
the per-parameter smoother state (`FloatParam::smoothed`), shared through
`Arc<VoiceParams>` in the source and threaded explicitly here. -/
structure VoiceSmoothers where
  fhz : Smoother
  q : Smoother
  fmod : Smoother
  drive : Smoother
  deriving DecidableEq

/-- `Voice` (src/voice.rs): oscillator, ladder filter, amplitude and filter
envelopes, velocity-derived gain, optional polyphonic gain smoother. -/
structure Voice where
  velsqrt : ℚ
  amp : Adsr
  filter_adsr : Adsr
  voice_gain : Option Smoother
  lpf : Ladder ℚ
  oscillator : Oscillator

namespace Voice

/-- `Voice::done`: true once the amplitude envelope is inactive. -/
def done (pAmp : AdsrParams) (v : Voice) : Bool := !(v.amp.active pAmp)

/-- `Voice::release`: delegate to the amplitude envelope. -/
def release (pAmp : AdsrParams) (v : Voice) : Voice :=
  { v with amp := v.amp.release pAmp }

/-- `Voice::next_sample` (src/voice.rs): advance the optional gain smoother
(or use 1), advance the amplitude envelope, read the drive in dB and convert
it to a gain via the external `db_to_gain`, recompute the filter cutoff as
`fhz + filterEnvelope × fmod` and the resonance from `q`, pull one oscillator
sample, drive it through the ladder filter and compensate, and scale by
`amplitudeEnvelope × gain × velsqrt`. The constants `pi` (for `set_fc`) and
the function `db2gain` model `std::f32::consts::PI` and
`nih_plug::util::db_to_gain`; `sat`/`satd` model `f32::tanh` and its
derivative inside the filter. -/
def next_sample (pi : ℚ) (db2gain : ℚ → ℚ) (sat satd : ℚ → ℚ)
    (pAmp pFilt : AdsrParams) (sm : VoiceSmoothers) (v : Voice) :
    ℚ × Voice × VoiceSmoothers :=
  let gr : ℚ × Option Smoother :=
    match v.voice_gain with
    | some g => let r := g.next; (r.1, some r.2)
    | none => (1, none)
  let ar := v.amp.next pAmp
  let amp := ar.1 * gr.1 * v.velsqrt
  let dr := sm.drive.next
  let drive := db2gain dr.1
  let fr := sm.fhz.next
  let er := v.filter_adsr.next pFilt
  let mr := sm.fmod.next
  let lpf1 := Ladder.set_fc pi v.lpf (fr.1 + er.1 * mr.1)
  let qr := sm.q.next
  let lpf2 := lpf1.set_resonance qr.1
  let or' := v.oscillator.sample
  let pr := lpf2.process_sample sat satd (or'.1 * drive)
  (amp * pr.1 / drive,
   { v with
      voice_gain := gr.2
      amp := ar.2
      filter_adsr := er.2
      lpf := pr.2
      oscillator := or'.2 },
   { sm with fhz := fr.2, q := qr.2, fmod := mr.2, drive := dr.2 })

end Voice

/-! ### The voice pool (src/lib.rs `Addsynth::create_voice`). -/

/-- The per-note identity data of a pooled voice (src/voice.rs `VoiceId`):
monotonic creation id, external voice id, channel, note. -/
structure PoolVoice where
  id : ℕ
  voice_id : ℤ
  channel : ℕ
  note : ℕ
  deriving DecidableEq

/-- A `VoiceTerminated` notification sent to the host. -/
structure TermEvent where
  voice_id : ℤ
  channel : ℕ
  note : ℕ
  deriving DecidableEq

/-- `compute_fallback_voice_id` (src/voice.rs): `note | (channel << 16)`. -/
def fallbackVoiceId (note channel : ℕ) : ℤ := (Nat.lor note (channel * 65536) : ℤ)

/-- The voice pool: the `voices: [Option<Voice>; NUM_VOICES]` array (tracking
only the identity data relevant to allocation), plus the monotonic creation
counter `NEXT_VOICE_ID`. -/
structure Pool where
  voices : List (Option PoolVoice)
  nextId : ℕ
  deriving DecidableEq

/-- `NUM_VOICES` (src/lib.rs). -/
def NUM_VOICES : ℕ := 16

/-- The initial pool: 16 empty slots. -/
def initPool : Pool := { voices := List.replicate NUM_VOICES none, nextId := 0 }

/-- `voices.iter().position(|v| v.is_none())`: index of the first free slot. -/
def firstNoneIdx : List (Option PoolVoice) → Option ℕ
  | [] => none
  | none :: _ => some 0
  | some _ :: rest => (firstNoneIdx rest).map (· + 1)

/-- `voices.iter_mut().min_by_key(|v| v.id())`: the first slot holding a voice
with the smallest creation id (slots are all occupied when this is reached;
empty slots are skipped to keep the function total). -/
def minAlive : List (Option PoolVoice) → Option (ℕ × PoolVoice)
  | [] => none
  | o :: rest =>
    let tail := (minAlive rest).map fun q => (q.1 + 1, q.2)
    match o with
    | none => tail
    | some v =>
      match tail with
      | none => some (0, v)
      | some q => if q.2.id < v.id then some q else some (0, v)

/-- A NoteOn event's allocation-relevant payload. -/
structure NoteOn where
  host_id : Option ℤ
  channel : ℕ
  note : ℕ
  deriving DecidableEq

namespace Pool

/-- `Addsynth::create_voice` (src/lib.rs): mint a fresh creation id, then
either fill the first free slot, or steal the slot of the oldest voice
(smallest creation id), emitting a `VoiceTerminated` notification for the
stolen voice before overwriting it. -/
def createVoice (p : Pool) (host_id : Option ℤ) (channel note : ℕ) :
    Pool × List TermEvent :=
  let v : PoolVoice :=
    { id := p.nextId
      voice_id := host_id.getD (fallbackVoiceId note channel)
      channel := channel
      note := note }
  match firstNoneIdx p.voices with
  | some i => ({ voices := p.voices.set i (some v), nextId := p.nextId + 1 }, [])
  | none =>
    match minAlive p.voices with
    | some q =>
      ({ voices := p.voices.set q.1 (some v), nextId := p.nextId + 1 },
       [{ voice_id := q.2.voice_id, channel := q.2.channel, note := q.2.note }])
    | none => ({ p with nextId := p.nextId + 1 }, [])

/-- Apply a sequence of NoteOn events to the pool. -/
def applyNoteOns (p : Pool) : List NoteOn → Pool
  | [] => p
  | e :: rest => applyNoteOns (p.createVoice e.host_id e.channel e.note).1 rest

/-- The number of simultaneously alive voices. -/
def aliveCount (p : Pool) : ℕ := p.voices.countP (·.isSome)

end Pool

/-! ## Theorems -/

/-- For a nonnegative argument, the Rust `% 1` remainder is the fractional
part. -/
theorem rustRem_one_eq_fract {a : ℚ} (ha : 0 ≤ a) : rustRem a 1 = Int.fract a := by
  unfold rustRem rtrunc
  rw [div_one, if_pos ha, Int.fract]
  ring

/-- C5: advancing a phasor lane with frequency `0 ≤ f < samplerate/2` and
phase in `[0,1)` by any step count adds `steps × f / samplerate`, wraps the
result into `[0,1)` (never negative), stores it, returns it, and leaves the
frequency and sample rate untouched. -/
theorem phasor_inc_unit_interval (p : Phasor8) (i : Fin 8) (amt : Fin 8 → ℕ)
    (hf0 : 0 ≤ p.hz i) (hfn : p.hz i < p.samplerate i / 2)
    (hp0 : 0 ≤ p.phase i) (_hp1 : p.phase i < 1) :
    (p.inc amt).1 i = Int.fract (p.phase i + (amt i : ℚ) * (p.hz i / p.samplerate i)) ∧
    0 ≤ (p.inc amt).1 i ∧ (p.inc amt).1 i < 1 ∧
    (p.inc amt).2.phase i = (p.inc amt).1 i ∧
    (p.inc amt).2.hz = p.hz ∧ (p.inc amt).2.samplerate = p.samplerate := by
  have hsr : 0 < p.samplerate i := by
    have h2 : 0 < p.samplerate i / 2 := lt_of_le_of_lt hf0 hfn
    linarith
  have hstep : 0 ≤ (amt i : ℚ) * (p.hz i / p.samplerate i) := by
    have := div_nonneg hf0 hsr.le
    positivity
  set c : ℚ := p.phase i + (amt i : ℚ) * (p.hz i / p.samplerate i) with hc
  have hc0 : 0 ≤ c := by positivity
  have hmain : (p.inc amt).1 i = Int.fract c := by
    show (if c ≤ 0 then rustRem (c + 1) 1 else rustRem c 1) = Int.fract c
    by_cases h : c ≤ 0
    · have hz' : c = 0 := le_antisymm h hc0
      rw [if_pos h, hz']
      rw [rustRem_one_eq_fract (by norm_num)]
      norm_num
    · rw [if_neg h, rustRem_one_eq_fract hc0]
  refine ⟨hmain, ?_, ?_, rfl, rfl, rfl⟩
  · rw [hmain]; exact Int.fract_nonneg c
  · rw [hmain]; exact Int.fract_lt_one c

/-- Concrete instance of the phasor advance contract: frequency 3 at sample
rate 8, phase 7/10, two steps. -/
theorem phasor_inc_unit_interval_witness :
    (Phasor8.inc { hz := fun _ => 3, samplerate := fun _ => 8, phase := fun _ => (7 : ℚ) / 10 }
        (fun _ => 2)).1 0 =
      Int.fract ((7 : ℚ) / 10 + (2 : ℚ) * ((3 : ℚ) / 8)) ∧
    0 ≤ (Phasor8.inc { hz := fun _ => 3, samplerate := fun _ => 8, phase := fun _ => (7 : ℚ) / 10 }
        (fun _ => 2)).1 0 := by
  have h := phasor_inc_unit_interval
    { hz := fun _ => 3, samplerate := fun _ => 8, phase := fun _ => (7 : ℚ) / 10 }
    0 (fun _ => 2) (by norm_num) (by norm_num) (by norm_num) (by norm_num)
  exact ⟨h.1, h.2.1⟩

/-- C8: the amplitude envelope is inactive exactly in the Released state or in
Sustain with a zero sustain-level parameter, and a voice is done exactly when
its amplitude envelope is inactive. -/
theorem adsr_active_iff (p : AdsrParams) (e : Adsr) (v : Voice) :
    (Adsr.active p e = false ↔
      (e.state = AdsrState.Released ∨ (e.state = AdsrState.S ∧ p.s = 0))) ∧
    (Voice.done p v = true ↔ Adsr.active p v.amp = false) := by
  constructor
  · obtain ⟨sm, st, sr⟩ := e
    cases st <;> simp [Adsr.active]
  · simp [Voice.done]

/-- Concrete instance: a Released envelope is inactive. -/
theorem adsr_active_iff_witness :
    Adsr.active ⟨10, 300, 1/2, 300⟩
      ⟨⟨300, 0, 0, 0⟩, AdsrState.Released, 44100⟩ = false := by
  exact (adsr_active_iff ⟨10, 300, 1/2, 300⟩
    ⟨⟨300, 0, 0, 0⟩, AdsrState.Released, 44100⟩
    ⟨1, ⟨⟨300, 0, 0, 0⟩, AdsrState.Released, 44100⟩,
     ⟨⟨300, 0, 0, 0⟩, AdsrState.Released, 44100⟩, none,
     ⟨44100, Y4.zero ℚ, 0, Y4.zero ℚ, 0, 0⟩, Oscillator.new 44100⟩).1.mpr
    (Or.inl rfl)

/-- C6: ADSR state transitions fire exactly when the current ramp's steps-left
counter is 0 (and only from Attack, Decay or Release): Attack then starts the
Decay ramp from 1 toward the sustain level with time constant `d`, Decay falls
into Sustain with no further ramp started, Release falls into Released;
Sustain is absorbing under `next`; while a ramp is still in progress the state
is unchanged and the time constant is refreshed from the current parameter;
`next` is the transition followed by one smoother sample. -/
theorem adsr_transition_on_ramp_end (p : AdsrParams) (e : Adsr) :
    ((Adsr.transition p e).state ≠ e.state ↔
      (e.smoother.steps_left = 0 ∧
        (e.state = AdsrState.A ∨ e.state = AdsrState.D ∨ e.state = AdsrState.R))) ∧
    (e.smoother.steps_left = 0 → e.state = AdsrState.A →
      Adsr.transition p e =
        { e with
          state := AdsrState.D
          smoother := ((Smoother.new p.d).reset 1).set_target e.samplerate p.s }) ∧
    (e.smoother.steps_left = 0 → e.state = AdsrState.D →
      Adsr.transition p e = { e with state := AdsrState.S }) ∧
    (e.smoother.steps_left = 0 → e.state = AdsrState.R →
      Adsr.transition p e = { e with state := AdsrState.Released }) ∧
    (e.state = AdsrState.S → (Adsr.next p e).2.state = AdsrState.S) ∧
    (e.smoother.steps_left ≠ 0 →
      (Adsr.transition p e).state = e.state ∧
      (Adsr.transition p e).smoother.tc =
        (match e.state with
         | AdsrState.A => p.a
         | AdsrState.D => p.d
         | AdsrState.R => p.r
         | _ => e.smoother.tc)) ∧
    (Adsr.next p e).2.smoother = ((Adsr.transition p e).smoother.next).2 ∧
    (Adsr.next p e).2.state = (Adsr.transition p e).state := by
  obtain ⟨sm, st, sr⟩ := e
  by_cases h : sm.steps_left = 0 <;>
    cases st <;>
      simp [Adsr.transition, Adsr.next, h, Smoother.set_target]

/-- Concrete instances of the ADSR transition contract: an Attack envelope
whose ramp just finished moves to Decay with the fresh Decay ramp; one still
ramping stays in Attack with its time constant refreshed. -/
theorem adsr_transition_on_ramp_end_witness :
    Adsr.transition ⟨10, 300, 1/2, 300⟩ ⟨⟨10, 1, 1, 0⟩, AdsrState.A, 1000⟩ =
      { smoother := ((Smoother.new 300).reset 1).set_target 1000 (1/2)
        state := AdsrState.D
        samplerate := 1000 } ∧
    (Adsr.transition ⟨10, 300, 1/2, 300⟩ ⟨⟨20, 0, 1, 5⟩, AdsrState.A, 1000⟩).state =
        AdsrState.A ∧
    (Adsr.transition ⟨10, 300, 1/2, 300⟩ ⟨⟨20, 0, 1, 5⟩, AdsrState.A, 1000⟩).smoother.tc =
        10 := by
  refine ⟨?_, ?_, ?_⟩
  · exact (adsr_transition_on_ramp_end ⟨10, 300, 1/2, 300⟩
      ⟨⟨10, 1, 1, 0⟩, AdsrState.A, 1000⟩).2.1 rfl rfl
  · exact ((adsr_transition_on_ramp_end ⟨10, 300, 1/2, 300⟩
      ⟨⟨20, 0, 1, 5⟩, AdsrState.A, 1000⟩).2.2.2.2.2.1 (by decide)).1
  · exact ((adsr_transition_on_ramp_end ⟨10, 300, 1/2, 300⟩
      ⟨⟨20, 0, 1, 5⟩, AdsrState.A, 1000⟩).2.2.2.2.2.1 (by decide)).2

/-- Iterating `next` in the Release state with a fixed parameter set: as long
as steps remain on the ramp the state stays Release and the counter counts
down one per call. -/
theorem adsr_iterate_release (p : AdsrParams) :
    ∀ (n m : ℕ) (e : Adsr), e.state = AdsrState.R → e.smoother.steps_left = m →
      n ≤ m →
      (Adsr.iterateNext p n e).state = AdsrState.R ∧
      (Adsr.iterateNext p n e).smoother.steps_left = m - n := by
  intro n
  induction n with
  | zero => intro m e hR hm _; exact ⟨hR, by simpa using hm⟩
  | succ k ih =>
    intro m e hR hm hle
    obtain ⟨sm, st, sr⟩ := e
    subst hR
    simp only at hm
    have hk1 : 1 ≤ m := le_trans (Nat.le_add_left 1 k) hle
    have hm0 : sm.steps_left ≠ 0 := by omega
    have hstep : (Adsr.next p ⟨sm, AdsrState.R, sr⟩).2 =
        ⟨({ sm with tc := p.r }).next.2, AdsrState.R, sr⟩ := by
      simp [Adsr.next, Adsr.transition, hm0]
    have hnext : ({ sm with tc := p.r }).next.2.steps_left = m - 1 := by
      simp [Smoother.next, hm0]
      omega
    have hthis : Adsr.iterateNext p (k + 1) ⟨sm, AdsrState.R, sr⟩ =
        Adsr.iterateNext p k (Adsr.next p ⟨sm, AdsrState.R, sr⟩).2 := rfl
    rw [hthis, hstep]
    have hr := ih (m - 1) ⟨({ sm with tc := p.r }).next.2, AdsrState.R, sr⟩ rfl hnext
      (Nat.le_sub_one_of_lt hle)
    exact ⟨hr.1, by rw [hr.2]; omega⟩

/-- Unfolding one application of `next` off the back of an iteration. -/
theorem adsr_iterate_succ (p : AdsrParams) :
    ∀ (n : ℕ) (e : Adsr),
      Adsr.iterateNext p (n + 1) e = (Adsr.next p (Adsr.iterateNext p n e)).2 := by
  intro n
  induction n with
  | zero => intro e; rfl
  | succ k ih => intro e; exact ih (Adsr.next p e).2

/-- An envelope sitting in the Release state reports active. -/
theorem adsr_active_of_R (p : AdsrParams) (a : Adsr) (h : a.state = AdsrState.R) :
    Adsr.active p a = true := by
  obtain ⟨sm, st, sr⟩ := a
  simp only at h
  subst h
  rfl

/-- An envelope in the Released state reports inactive. -/
theorem adsr_active_of_released (p : AdsrParams) (a : Adsr)
    (h : a.state = AdsrState.Released) : Adsr.active p a = false := by
  obtain ⟨sm, st, sr⟩ := a
  simp only at h
  subst h
  rfl

/-- One `next` on a Release envelope whose ramp has finished enters Released. -/
theorem adsr_next_R_finished (p : AdsrParams) (a : Adsr)
    (hR : a.state = AdsrState.R) (hz : a.smoother.steps_left = 0) :
    (Adsr.next p a).2.state = AdsrState.Released := by
  obtain ⟨sm, st, sr⟩ := a
  simp only at hR hz
  subst hR
  simp [Adsr.next, Adsr.transition, hz]

/-- C10: `release()` in any state (including Released) enters Release and
restarts the ramp from the current smoothed value toward 0 with the release
time constant, so the envelope reports active again; it stays active while the
new ramp runs and goes inactive on the call after the ramp completes. -/
theorem adsr_release_restarts_ramp (p : AdsrParams) (e : Adsr) :
    (Adsr.release p e).state = AdsrState.R ∧
    (Adsr.release p e).smoother.current = e.smoother.current ∧
    (Adsr.release p e).smoother.target = 0 ∧
    (Adsr.release p e).smoother.tc = p.r ∧
    (Adsr.release p e).smoother.steps_left = Smoother.numSteps p.r e.samplerate ∧
    Adsr.active p (Adsr.release p e) = true ∧
    (∀ n ≤ Smoother.numSteps p.r e.samplerate,
      Adsr.active p (Adsr.iterateNext p n (Adsr.release p e)) = true) ∧
    (Adsr.iterateNext p (Smoother.numSteps p.r e.samplerate + 1)
        (Adsr.release p e)).state = AdsrState.Released ∧
    Adsr.active p (Adsr.iterateNext p (Smoother.numSteps p.r e.samplerate + 1)
        (Adsr.release p e)) = false := by
  set m := Smoother.numSteps p.r e.samplerate with hm
  have hrel : (Adsr.release p e).state = AdsrState.R ∧
      (Adsr.release p e).smoother.steps_left = m := by
    constructor <;> rfl
  have hiter := adsr_iterate_release p
  have hstay : ∀ n ≤ m, (Adsr.iterateNext p n (Adsr.release p e)).state = AdsrState.R ∧
      (Adsr.iterateNext p n (Adsr.release p e)).smoother.steps_left = m - n :=
    fun n hn => hiter n m (Adsr.release p e) hrel.1 hrel.2 hn
  have hlast := hstay m le_rfl
  have hfin : (Adsr.iterateNext p (m + 1) (Adsr.release p e)).state = AdsrState.Released := by
    rw [adsr_iterate_succ]
    exact adsr_next_R_finished p _ hlast.1 (by rw [hlast.2]; omega)
  refine ⟨hrel.1, rfl, rfl, rfl, hrel.2, rfl, ?_, hfin, ?_⟩
  · intro n hn
    exact adsr_active_of_R p _ (hstay n hn).1
  · exact adsr_active_of_released p _ hfin

/-- Concrete instance: releasing an already-Released envelope re-arms a
2-step ramp toward 0 and reports active again, then goes inactive after the
ramp runs out. -/
theorem adsr_release_restarts_ramp_witness :
    (Adsr.release ⟨10, 300, 1/2, 2⟩ ⟨⟨2, (3 : ℚ)/4, 0, 0⟩, AdsrState.Released, 1000⟩).state =
        AdsrState.R ∧
    Adsr.active ⟨10, 300, 1/2, 2⟩
      (Adsr.release ⟨10, 300, 1/2, 2⟩ ⟨⟨2, (3 : ℚ)/4, 0, 0⟩, AdsrState.Released, 1000⟩) = true ∧
    Adsr.active ⟨10, 300, 1/2, 2⟩
      (Adsr.iterateNext ⟨10, 300, 1/2, 2⟩ 1
        (Adsr.release ⟨10, 300, 1/2, 2⟩ ⟨⟨2, (3 : ℚ)/4, 0, 0⟩, AdsrState.Released, 1000⟩)) =
        true ∧
    Adsr.active ⟨10, 300, 1/2, 2⟩
      (Adsr.iterateNext ⟨10, 300, 1/2, 2⟩
        (Smoother.numSteps 2 1000 + 1)
        (Adsr.release ⟨10, 300, 1/2, 2⟩ ⟨⟨2, (3 : ℚ)/4, 0, 0⟩, AdsrState.Released, 1000⟩)) =
        false := by
  have h := adsr_release_restarts_ramp ⟨10, 300, 1/2, 2⟩
    ⟨⟨2, (3 : ℚ)/4, 0, 0⟩, AdsrState.Released, 1000⟩
  have hns : Smoother.numSteps 2 1000 = 2 := by
    norm_num [Smoother.numSteps]
    rfl
  exact ⟨h.1, h.2.2.2.2.2.1, h.2.2.2.2.2.2.1 1 (by rw [hns]; omega), h.2.2.2.2.2.2.2.2⟩

/-- The Newton-Raphson loop never takes more steps than its fuel. -/
theorem nrLoop_count_le (sat satd : ℚ → ℚ) (φ : Phi ℚ) :
    ∀ (fuel : ℕ) (y : Y4 ℚ), (nrLoop sat satd φ fuel y).2 ≤ fuel := by
  intro fuel
  induction fuel with
  | zero => intro y; simp [nrLoop]
  | succ n ih =>
    intro y
    unfold nrLoop
    cases nr_step sat satd φ y with
    | none => simp
    | some step =>
      dsimp only
      by_cases h : step.magSq < 1 / 10000
      · rw [if_pos h]
        simp
      · rw [if_neg h]
        simpa using Nat.succ_le_succ (ih (Y4.sub y step))

/-- C3: each per-sample solve takes at most 4 Newton-Raphson steps; a singular
Jacobian aborts the loop with the iterate unchanged and no step taken; and
`process_sample` (a total function — it cannot panic) always returns the last
stage value of the final iterate and commits it as the new state. -/
theorem ladder_nr_bounded_iterations (sat satd : ℚ → ℚ) (φ : Phi ℚ) (y : Y4 ℚ)
    (l : Ladder ℚ) (x : ℚ) :
    (nrLoop sat satd φ 4 y).2 ≤ 4 ∧
    (nr_step sat satd φ y = none →
      ∀ n, nrLoop sat satd φ (n + 1) y = (y, 0)) ∧
    (Ladder.process_sample sat satd l x).1 =
      (nrLoop sat satd ⟨x, l.g, l.k, l.y⟩ 4 l.y).1.a3 ∧
    (Ladder.process_sample sat satd l x).2 =
      { l with
          y := (nrLoop sat satd ⟨x, l.g, l.k, l.y⟩ 4 l.y).1
          u := Phi.eval_u sat ⟨x, l.g, l.k, l.y⟩
                 (nrLoop sat satd ⟨x, l.g, l.k, l.y⟩ 4 l.y).1 } := by
  refine ⟨nrLoop_count_le sat satd φ 4 y, ?_, rfl, rfl⟩
  intro hnone n
  unfold nrLoop
  rw [hnone]

/-- Concrete instance of the singular-Jacobian abort: with a constant
saturator derivative 1, gain 1 and resonance −16 the Jacobian at the origin is
singular, and the loop returns the origin unchanged with zero steps taken. -/
theorem ladder_nr_bounded_iterations_witness :
    nrLoop id (fun _ => 1) ⟨5, 1, -16, Y4.zero ℚ⟩ 4 (Y4.zero ℚ) = (Y4.zero ℚ, 0) ∧
    (nrLoop id (fun _ => 1) ⟨5, 1, -16, Y4.zero ℚ⟩ 4 (Y4.zero ℚ)).2 ≤ 4 := by
  have h := ladder_nr_bounded_iterations id (fun _ => 1) ⟨5, 1, -16, Y4.zero ℚ⟩
    (Y4.zero ℚ)
    { samplerate := 44100, u := Y4.zero ℚ, g := 1, y := Y4.zero ℚ, k := -16, fb := 0 } 5
  have hnone : nr_step id (fun _ => 1) (⟨5, 1, -16, Y4.zero ℚ⟩ : Phi ℚ) (Y4.zero ℚ) =
      none := by
    have hdet : (Phi.jacobian (fun _ => (1 : ℚ)) ⟨5, 1, -16, Y4.zero ℚ⟩
        (Y4.zero ℚ)).det = 0 := by
      norm_num [Phi.jacobian, Phi.v, Y4.map, Y4.zero, Mat4.det, Mat4.det3]
    unfold nr_step Mat4.try_inverse
    rw [if_pos hdet]
  exact ⟨h.2.1 hnone 3, h.1⟩

/-- Any matrix sends the zero vector to the zero vector. -/
theorem mat4_mulVec_zero (m : Mat4 ℚ) : m.mulVec (Y4.zero ℚ) = Y4.zero ℚ := by
  simp [Mat4.mulVec, Y4.zero]

/-- C9: a ladder filter with zero state and zero resonance fed a zero input
converges within the iteration cap to exactly zero: the returned last-stage
value is 0 and the committed state stays the zero vector (for any saturator
fixing 0, as `tanh` does). -/
theorem ladder_zero_input_zero_output (sat satd : ℚ → ℚ) (h0 : sat 0 = 0)
    (l : Ladder ℚ) (hy : l.y = Y4.zero ℚ) (_hk : l.k = 0) :
    Ladder.process_sample sat satd l 0 =
      (0, { l with y := Y4.zero ℚ, u := Y4.zero ℚ }) := by
  have hv : Phi.v ⟨0, l.g, l.k, Y4.zero ℚ⟩ (Y4.zero ℚ) = Y4.zero ℚ := by
    simp [Phi.v, Y4.zero]
  have hmap : Y4.map sat (Y4.zero ℚ) = Y4.zero ℚ := by
    simp [Y4.map, Y4.zero, h0]
  have hsmul : Y4.smul l.g (Y4.zero ℚ) = Y4.zero ℚ := by
    simp [Y4.smul, Y4.zero]
  have hu : Phi.eval_u sat ⟨0, l.g, l.k, Y4.zero ℚ⟩ (Y4.zero ℚ) = Y4.zero ℚ := by
    show Y4.smul l.g (Y4.map sat (Phi.v ⟨0, l.g, l.k, Y4.zero ℚ⟩ (Y4.zero ℚ))) = Y4.zero ℚ
    rw [hv, hmap, hsmul]
  have hF : Phi.eval sat ⟨0, l.g, l.k, Y4.zero ℚ⟩ (Y4.zero ℚ) = Y4.zero ℚ := by
    show Y4.sub (Y4.add (Phi.eval_u sat ⟨0, l.g, l.k, Y4.zero ℚ⟩ (Y4.zero ℚ)) (Y4.zero ℚ))
        (Y4.zero ℚ) = Y4.zero ℚ
    rw [hu]
    simp [Y4.add, Y4.sub, Y4.zero]
  have hsub : Y4.sub (Y4.zero ℚ) (Y4.zero ℚ) = Y4.zero ℚ := by
    simp [Y4.sub, Y4.zero]
  have hmag : (Y4.zero ℚ).magSq < 1 / 10000 := by
    norm_num [Y4.magSq, Y4.zero]
  have hloop : (nrLoop sat satd ⟨0, l.g, l.k, Y4.zero ℚ⟩ 4 (Y4.zero ℚ)).1 = Y4.zero ℚ := by
    cases hinv : (Phi.jacobian satd ⟨0, l.g, l.k, Y4.zero ℚ⟩ (Y4.zero ℚ)).try_inverse with
    | none =>
      have hns : nr_step sat satd (⟨0, l.g, l.k, Y4.zero ℚ⟩ : Phi ℚ) (Y4.zero ℚ) = none := by
        unfold nr_step
        rw [hinv]
      have h4 : nrLoop sat satd (⟨0, l.g, l.k, Y4.zero ℚ⟩ : Phi ℚ) 4 (Y4.zero ℚ) =
          (Y4.zero ℚ, 0) := by
        unfold nrLoop
        rw [hns]
      rw [h4]
    | some ij =>
      have hns : nr_step sat satd (⟨0, l.g, l.k, Y4.zero ℚ⟩ : Phi ℚ) (Y4.zero ℚ) =
          some (Y4.zero ℚ) := by
        unfold nr_step
        rw [hinv, hF]
        show some (ij.mulVec (Y4.zero ℚ)) = some (Y4.zero ℚ)
        rw [mat4_mulVec_zero]
      have h4 : nrLoop sat satd (⟨0, l.g, l.k, Y4.zero ℚ⟩ : Phi ℚ) 4 (Y4.zero ℚ) =
          (Y4.zero ℚ, 1) := by
        unfold nrLoop
        rw [hns]
        dsimp only
        rw [if_pos hmag, hsub]
      rw [h4]
  show ((nrLoop sat satd ⟨0, l.g, l.k, l.y⟩ 4 l.y).1.a3,
      { l with
          y := (nrLoop sat satd ⟨0, l.g, l.k, l.y⟩ 4 l.y).1
          u := Phi.eval_u sat ⟨0, l.g, l.k, l.y⟩
                 (nrLoop sat satd ⟨0, l.g, l.k, l.y⟩ 4 l.y).1 }) =
    (0, { l with y := Y4.zero ℚ, u := Y4.zero ℚ })
  rw [hy, hloop, hu]
  rfl

/-- Concrete instance: the identity saturator, unit cutoff gain, zero state,
zero resonance, zero input. -/
theorem ladder_zero_input_zero_output_witness :
    Ladder.process_sample id id
        { samplerate := 44100, u := Y4.zero ℚ, g := 1, y := Y4.zero ℚ, k := 0, fb := 0 } 0 =
      (0, { samplerate := 44100, u := Y4.zero ℚ, g := 1, y := Y4.zero ℚ, k := 0, fb := 0 }) :=
  ladder_zero_input_zero_output id id rfl
    { samplerate := 44100, u := Y4.zero ℚ, g := 1, y := Y4.zero ℚ, k := 0, fb := 0 } rfl rfl

/-- C4 counterexample: `set_fc` clamps the cutoff at the full sample rate, not
at Nyquist. At sample rate 2 and cutoff 2 the computed gain is `π`, while the
claimed formula `π·min(fc, samplerate/2)/samplerate` gives `π/2 ≠ π`. -/
theorem ladder_set_fc_nyquist_cex :
    (Ladder.set_fc Real.pi
        { samplerate := 2, u := Y4.zero ℝ, g := 0, y := Y4.zero ℝ, k := 0, fb := 0 } 2).g =
      Real.pi ∧
    Real.pi * min (2 : ℝ) (2 / 2) / 2 = Real.pi / 2 ∧
    Real.pi ≠ Real.pi / 2 := by
  refine ⟨?_, ?_, ?_⟩
  · show Real.pi * min (2 : ℝ) 2 / 2 = Real.pi
    norm_num
  · norm_num
  · intro h
    have hpi := Real.pi_pos
    have : Real.pi = 0 := by linarith [h]
    linarith

/-- C4 as the code has it: after `set_fc fc` on a ladder with positive sample
rate, the gain is `π·min(fc, samplerate)/samplerate` — the effective cutoff is
clamped at the full sample rate — hence `g ≤ π`. -/
theorem ladder_set_fc_clamped_full_rate (l : Ladder ℝ) (fc : ℝ)
    (hsr : 0 < l.samplerate) :
    (Ladder.set_fc Real.pi l fc).g = Real.pi * min fc l.samplerate / l.samplerate ∧
    (Ladder.set_fc Real.pi l fc).g ≤ Real.pi := by
  refine ⟨rfl, ?_⟩
  show Real.pi * min fc l.samplerate / l.samplerate ≤ Real.pi
  rw [div_le_iff₀ hsr]
  have hle : min fc l.samplerate ≤ l.samplerate := min_le_right _ _
  nlinarith [Real.pi_pos]

/-- Concrete instance: at sample rate 2 and requested cutoff 2, the gain is
`π·min(2,2)/2 = π ≤ π`. -/
theorem ladder_set_fc_clamped_full_rate_witness :
    (Ladder.set_fc Real.pi
        { samplerate := 2, u := Y4.zero ℝ, g := 0, y := Y4.zero ℝ, k := 0, fb := 0 } 2).g =
      Real.pi * min (2 : ℝ) 2 / 2 ∧
    (Ladder.set_fc Real.pi
        { samplerate := 2, u := Y4.zero ℝ, g := 0, y := Y4.zero ℝ, k := 0, fb := 0 } 2).g ≤
      Real.pi :=
  ladder_set_fc_clamped_full_rate
    { samplerate := 2, u := Y4.zero ℝ, g := 0, y := Y4.zero ℝ, k := 0, fb := 0 } 2
    (by norm_num)

/-- C1 (amended): the live `sample()` performs no additive sum at all — it
advances only phasor bank 0 by one step and returns the lane-0 naive sawtooth
`2·phase − 1` minus the polyBLEP residual, leaving gains, sample rate and
phase offset untouched; no Nyquist exclusion and no ÷2 normalization occur. -/
theorem oscillator_sample_polyblep_saw (o : Oscillator) :
    (o.sample).1 =
      ((o.phasors 0).inc (fun _ => 1)).1 0 * 2 - 1 -
        poly_blep (((o.phasors 0).inc (fun _ => 1)).1 0)
          (((o.phasors 0).inc (fun _ => 1)).2.step 0) ∧
    (o.sample).2.phasors = Function.update o.phasors 0 ((o.phasors 0).inc (fun _ => 1)).2 ∧
    (o.sample).2.gains = o.gains ∧
    (o.sample).2.samplerate = o.samplerate ∧
    (o.sample).2.phase_offset = o.phase_offset :=
  ⟨rfl, rfl, rfl, rfl, rfl⟩

/-- C1 counterexample: for a sine-preset oscillator (one partial, gain 1,
frequency 1 at sample rate 4, all phases 0), the code's `sample()` returns
`−1/2`, while the claimed sum-of-sines formula gives `sin(π/2)/2 = 1/2`. -/
theorem oscillator_sample_not_additive_cex :
    (Oscillator.sample (Oscillator.sine 4 1)).1 = -(1/2) ∧
    Oscillator.claimedSample (Oscillator.sine 4 1) = 1/2 ∧
    ((Oscillator.sample (Oscillator.sine 4 1)).1 : ℝ) ≠
      Oscillator.claimedSample (Oscillator.sine 4 1) := by
  have hcode : (Oscillator.sample (Oscillator.sine 4 1)).1 = -(1/2) := by
    show (((Oscillator.sine 4 1).phasors 0).inc (fun _ => 1)).1 0 * 2 - 1 -
        poly_blep ((((Oscillator.sine 4 1).phasors 0).inc (fun _ => 1)).1 0)
          ((((Oscillator.sine 4 1).phasors 0).inc (fun _ => 1)).2.step 0) = -(1/2)
    have hph : (((Oscillator.sine 4 1).phasors 0).inc (fun _ => 1)).1 0 = 1/4 := by
      show (if (0 : ℚ) + ((1 : ℕ) : ℚ) * ((1 : ℚ) / 4) ≤ 0 then
          rustRem ((0 : ℚ) + ((1 : ℕ) : ℚ) * ((1 : ℚ) / 4) + 1) 1
        else rustRem ((0 : ℚ) + ((1 : ℕ) : ℚ) * ((1 : ℚ) / 4)) 1) = 1/4
      rw [if_neg (by norm_num)]
      rw [rustRem_one_eq_fract (by norm_num)]
      rw [Int.fract_eq_self.mpr (by constructor <;> norm_num)]
      norm_num
    rw [hph]
    have hstep : (((Oscillator.sine 4 1).phasors 0).inc (fun _ => 1)).2.step 0 = 1/4 := by
      show (1 : ℚ) / 4 = 1/4
      norm_num
    rw [hstep]
    rw [poly_blep, if_neg (by norm_num), if_neg (by norm_num)]
    norm_num
  have hhz0 : ((Oscillator.sine 4 1).phasors 0).hz = fun j => if j = 0 then (1 : ℚ) else 0 := by
    show ({ (Oscillator.new 4).phasors 0 with
        hz := fun j => if j = 0 then (1 : ℚ) else 0 } : Phasor8).hz = _
    rfl
  have hclaim : Oscillator.claimedSample (Oscillator.sine 4 1) = 1/2 := by
    rw [Oscillator.claimedSample]
    have hterm00 :
        (if ((Oscillator.sine 4 1).phasors 0).hz 0 < (Oscillator.sine 4 1).samplerate / 2 then
          (((Oscillator.sine 4 1).gains 0 0 : ℚ) : ℝ) *
            Real.sin (2 * Real.pi *
              ((Int.fract (((Oscillator.sine 4 1).phasors 0).phase 0 +
                  ((Oscillator.sine 4 1).phasors 0).hz 0 /
                    ((Oscillator.sine 4 1).phasors 0).samplerate 0) : ℚ) : ℝ))
        else 0) = 1 := by
      rw [if_pos]
      · have hg : (Oscillator.sine 4 1).gains 0 0 = 1 := by
          show (if (0 : Fin 8) = 0 then (1 : ℚ) else 0) = 1
          simp
        have hfr : Int.fract (((Oscillator.sine 4 1).phasors 0).phase 0 +
            ((Oscillator.sine 4 1).phasors 0).hz 0 /
              ((Oscillator.sine 4 1).phasors 0).samplerate 0) = (1 : ℚ)/4 := by
          show Int.fract ((0 : ℚ) + (if (0 : Fin 8) = 0 then (1 : ℚ) else 0) / 4) = (1 : ℚ)/4
          rw [if_pos rfl]
          rw [Int.fract_eq_self.mpr (by constructor <;> norm_num)]
          norm_num
        rw [hg, hfr]
        push_cast
        rw [show (2 : ℝ) * Real.pi * (1 / 4) = Real.pi / 2 by ring]
        rw [Real.sin_pi_div_two]
        norm_num
      · show (if (0 : Fin 8) = 0 then (1 : ℚ) else 0) < 4 / 2
        rw [if_pos rfl]
        norm_num
    have hinner0 : (∑ j : Fin 8,
        if ((Oscillator.sine 4 1).phasors 0).hz j < (Oscillator.sine 4 1).samplerate / 2 then
          (((Oscillator.sine 4 1).gains 0 j : ℚ) : ℝ) *
            Real.sin (2 * Real.pi *
              ((Int.fract (((Oscillator.sine 4 1).phasors 0).phase j +
                  ((Oscillator.sine 4 1).phasors 0).hz j /
                    ((Oscillator.sine 4 1).phasors 0).samplerate j) : ℚ) : ℝ))
        else 0) = 1 := by
      rw [Finset.sum_eq_single (0 : Fin 8)]
      · exact hterm00
      · intro j _ hj
        have hg : (Oscillator.sine 4 1).gains 0 j = 0 := by
          show (if j = 0 then (1 : ℚ) else 0) = 0
          rw [if_neg hj]
        rw [hg]
        simp
      · simp
    rw [Finset.sum_eq_single (0 : Fin 128)]
    · rw [hinner0]
    · intro i _ hi
      apply Finset.sum_eq_zero
      intro j _
      have hg : (Oscillator.sine 4 1).gains i j = 0 := by
        show Function.update (Oscillator.new 4).gains 0 (fun j => if j = 0 then (1 : ℚ) else 0)
            i j = 0
        rw [Function.update_noteq hi]
        rfl
      rw [hg]
      simp
    · simp
  refine ⟨hcode, hclaim, ?_⟩
  rw [hcode, hclaim]
  push_cast
  norm_num

/-- C7: one voice sample is `amplitudeEnvelope × velocity-sqrt ×
(ladder(osc × drive) / drive)`, where within the same call the cutoff is
recomputed as `fhz + filterEnvelope × fmod` from the smoothed parameters, the
resonance is recomputed from its smoothed parameter, and each of the two
envelopes is advanced by exactly one step. -/
theorem voice_next_sample_formula (pi : ℚ) (db2gain sat satd : ℚ → ℚ)
    (pAmp pFilt : AdsrParams) (sm : VoiceSmoothers) (v : Voice)
    (h : v.voice_gain = none) :
    (Voice.next_sample pi db2gain sat satd pAmp pFilt sm v).1 =
      (v.amp.next pAmp).1 * v.velsqrt *
        (((Ladder.set_fc pi v.lpf
              ((sm.fhz.next).1 + (v.filter_adsr.next pFilt).1 * (sm.fmod.next).1)).set_resonance
            (sm.q.next).1).process_sample sat satd
            ((v.oscillator.sample).1 * db2gain (sm.drive.next).1)).1 /
          db2gain (sm.drive.next).1 ∧
    (Voice.next_sample pi db2gain sat satd pAmp pFilt sm v).2.1.amp =
      (v.amp.next pAmp).2 ∧
    (Voice.next_sample pi db2gain sat satd pAmp pFilt sm v).2.1.filter_adsr =
      (v.filter_adsr.next pFilt).2 ∧
    (Voice.next_sample pi db2gain sat satd pAmp pFilt sm v).2.1.lpf =
      (((Ladder.set_fc pi v.lpf
            ((sm.fhz.next).1 + (v.filter_adsr.next pFilt).1 * (sm.fmod.next).1)).set_resonance
          (sm.q.next).1).process_sample sat satd
          ((v.oscillator.sample).1 * db2gain (sm.drive.next).1)).2 ∧
    (Voice.next_sample pi db2gain sat satd pAmp pFilt sm v).2.1.oscillator =
      (v.oscillator.sample).2 ∧
    (Voice.next_sample pi db2gain sat satd pAmp pFilt sm v).2.2 =
      { sm with
          fhz := (sm.fhz.next).2
          q := (sm.q.next).2
          fmod := (sm.fmod.next).2
          drive := (sm.drive.next).2 } := by
  refine ⟨?_, rfl, rfl, rfl, rfl, rfl⟩
  simp only [Voice.next_sample, h]
  ring

/-- A concrete voice used to instantiate the per-sample formula. -/
def witnessVoice : Voice :=
  { velsqrt := 1
    amp := Adsr.new 4 ⟨10, 300, 1/2, 300⟩
    filter_adsr := Adsr.new 4 ⟨10, 300, 1/2, 300⟩
    voice_gain := none
    lpf := { samplerate := 4, u := Y4.zero ℚ, g := 1, y := Y4.zero ℚ, k := 0, fb := 0 }
    oscillator := Oscillator.new 4 }

/-- Concrete smoother states used to instantiate the per-sample formula. -/
def witnessSmoothers : VoiceSmoothers :=
  { fhz := (Smoother.new 100).reset 2
    q := (Smoother.new 30).reset 0
    fmod := (Smoother.new 100).reset 0
    drive := (Smoother.new 50).reset 0 }

/-- Concrete instance of the voice per-sample contract: the amplitude envelope
is advanced exactly once and the output matches the claimed formula shape. -/
theorem voice_next_sample_formula_witness :
    (Voice.next_sample 3 id id id ⟨10, 300, 1/2, 300⟩ ⟨10, 300, 1/2, 300⟩
        witnessSmoothers witnessVoice).2.1.amp =
      (witnessVoice.amp.next ⟨10, 300, 1/2, 300⟩).2 ∧
    (Voice.next_sample 3 id id id ⟨10, 300, 1/2, 300⟩ ⟨10, 300, 1/2, 300⟩
        witnessSmoothers witnessVoice).2.1.filter_adsr =
      (witnessVoice.filter_adsr.next ⟨10, 300, 1/2, 300⟩).2 := by
  have h := voice_next_sample_formula 3 id id id ⟨10, 300, 1/2, 300⟩ ⟨10, 300, 1/2, 300⟩
    witnessSmoothers witnessVoice rfl
  exact ⟨h.2.1, h.2.2.1⟩

/-- `firstNoneIdx` finds the first free slot: the slot at the returned index
is free and every earlier slot is occupied. -/
theorem firstNoneIdx_spec :
    ∀ (l : List (Option PoolVoice)) (i : ℕ), firstNoneIdx l = some i →
      l.get? i = some none ∧ ∀ j, j < i → l.get? j ≠ some none := by
  intro l
  induction l with
  | nil => intro i h; simp [firstNoneIdx] at h
  | cons o rest ih =>
    intro i h
    cases o with
    | none =>
      simp [firstNoneIdx] at h
      subst h
      exact ⟨rfl, by omega⟩
    | some w =>
      simp only [firstNoneIdx, Option.map_eq_some'] at h
      obtain ⟨i', hi', rfl⟩ := h
      obtain ⟨h1, h2⟩ := ih i' hi'
      refine ⟨h1, ?_⟩
      intro j hj
      cases j with
      | zero => simp
      | succ j' =>
        have : j' < i' := by omega
        simpa using h2 j' this

/-- When `minAlive` finds nothing, no slot holds a voice. -/
theorem minAlive_none_spec :
    ∀ (l : List (Option PoolVoice)), minAlive l = none →
      ∀ (j : ℕ) (w : PoolVoice), l.get? j ≠ some (some w) := by
  intro l
  induction l with
  | nil => intro _ j w; simp
  | cons o rest ih =>
    intro h j w
    cases o with
    | none =>
      have hrest : minAlive rest = none := by
        simp only [minAlive, Option.map_eq_none'] at h
        exact h
      cases j with
      | zero => simp
      | succ j' => simpa using ih hrest j' w
    | some v =>
      exfalso
      cases hr : minAlive rest with
      | none => simp [minAlive, hr] at h
      | some q =>
        by_cases hlt : q.2.id < v.id <;> simp [minAlive, hr, hlt] at h

/-- A pool headed by an occupied slot always has an oldest voice. -/
theorem minAlive_cons_some (w : PoolVoice) (rest : List (Option PoolVoice)) :
    ∃ q, minAlive (some w :: rest) = some q := by
  cases hr : minAlive rest with
  | none => exact ⟨(0, w), by simp [minAlive, hr]⟩
  | some q =>
    by_cases hlt : q.2.id < w.id
    · exact ⟨(q.1 + 1, q.2), by simp [minAlive, hr, hlt]⟩
    · exact ⟨(0, w), by simp [minAlive, hr, hlt]⟩

/-- `minAlive` returns an occupied slot holding a voice whose creation id is
minimal among all live voices. -/
theorem minAlive_spec :
    ∀ (l : List (Option PoolVoice)) (i : ℕ) (v : PoolVoice), minAlive l = some (i, v) →
      l.get? i = some (some v) ∧
      ∀ (j : ℕ) (w : PoolVoice), l.get? j = some (some w) → v.id ≤ w.id := by
  intro l
  induction l with
  | nil => intro i v h; simp [minAlive] at h
  | cons o rest ih =>
    intro i v h
    cases o with
    | none =>
      simp only [minAlive, Option.map_eq_some'] at h
      obtain ⟨⟨i', v'⟩, hq, hshift⟩ := h
      injection hshift with hi hveq
      subst hi
      subst hveq
      obtain ⟨h1, h2⟩ := ih i' v' hq
      refine ⟨by simpa using h1, ?_⟩
      intro j w hw
      cases j with
      | zero => simp at hw
      | succ j' => exact h2 j' w (by simpa using hw)
    | some hv =>
      cases hr : minAlive rest with
      | none =>
        simp only [minAlive, hr, Option.map_none'] at h
        injection h with h'
        injection h'.symm with hi hveq
        subst hi
        subst hveq
        refine ⟨rfl, ?_⟩
        intro j w hw
        cases j with
        | zero =>
          simp at hw
          subst hw
          exact le_refl _
        | succ j' =>
          exact absurd (by simpa using hw) (minAlive_none_spec rest hr j' w)
      | some q =>
        obtain ⟨j₀, u⟩ := q
        by_cases hlt : u.id < hv.id
        · simp only [minAlive, hr, Option.map_some', if_pos hlt] at h
          injection h with h'
          injection h'.symm with hi hveq
          subst hi
          rw [hveq]
          obtain ⟨h1, h2⟩ := ih j₀ u hr
          refine ⟨by simpa using h1, ?_⟩
          intro j w hw
          cases j with
          | zero =>
            simp at hw
            subst hw
            exact le_of_lt hlt
          | succ j' => exact h2 j' w (by simpa using hw)
        · simp only [minAlive, hr, Option.map_some', if_neg hlt] at h
          injection h with h'
          injection h'.symm with hi hveq
          subst hi
          rw [hveq]
          obtain ⟨h1, h2⟩ := ih j₀ u hr
          refine ⟨rfl, ?_⟩
          intro j w hw
          cases j with
          | zero =>
            simp at hw
            subst hw
            exact le_refl _
          | succ j' =>
            exact le_trans (not_lt.mp hlt) (h2 j' w (by simpa using hw))

/-- `create_voice` never changes the number of slots. -/
theorem createVoice_preserves_length (p : Pool) (hid : Option ℤ) (ch nt : ℕ) :
    ((p.createVoice hid ch nt).1).voices.length = p.voices.length := by
  unfold Pool.createVoice
  cases firstNoneIdx p.voices with
  | some i => simp
  | none =>
    cases minAlive p.voices with
    | some q => simp
    | none => simp

/-- Applying NoteOn events never changes the number of slots. -/
theorem applyNoteOns_length :
    ∀ (evs : List NoteOn) (p : Pool),
      (Pool.applyNoteOns p evs).voices.length = p.voices.length := by
  intro evs
  induction evs with
  | nil => intro p; rfl
  | cons e rest ih =>
    intro p
    show (Pool.applyNoteOns (p.createVoice e.host_id e.channel e.note).1 rest).voices.length =
      p.voices.length
    rw [ih, createVoice_preserves_length]

/-- C2: from the initial pool, any sequence of NoteOn events leaves at most
`NUM_VOICES` (16) voices alive; when a free slot exists, allocation fills the
first free slot (all earlier slots occupied) and emits no termination; when no
slot is free, allocation overwrites the slot holding the voice with the
smallest creation id among all alive voices and emits exactly one termination
notification naming that stolen voice. -/
theorem voice_pool_capacity_and_stealing (p : Pool) (hid : Option ℤ) (ch nt : ℕ) :
    (∀ evs : List NoteOn, Pool.aliveCount (Pool.applyNoteOns initPool evs) ≤ NUM_VOICES) ∧
    (∀ i, firstNoneIdx p.voices = some i →
      p.voices.get? i = some none ∧
      (∀ j, j < i → p.voices.get? j ≠ some none) ∧
      (p.createVoice hid ch nt).1.voices =
        p.voices.set i (some ⟨p.nextId, hid.getD (fallbackVoiceId nt ch), ch, nt⟩) ∧
      (p.createVoice hid ch nt).2 = []) ∧
    (firstNoneIdx p.voices = none → p.voices ≠ [] →
      ∃ i old, minAlive p.voices = some (i, old) ∧
        p.voices.get? i = some (some old) ∧
        (∀ j w, p.voices.get? j = some (some w) → old.id ≤ w.id) ∧
        (p.createVoice hid ch nt).1.voices =
          p.voices.set i (some ⟨p.nextId, hid.getD (fallbackVoiceId nt ch), ch, nt⟩) ∧
        (p.createVoice hid ch nt).2 = [⟨old.voice_id, old.channel, old.note⟩]) := by
  refine ⟨?_, ?_, ?_⟩
  · intro evs
    have hlen : (Pool.applyNoteOns initPool evs).voices.length = NUM_VOICES := by
      rw [applyNoteOns_length]
      simp [initPool]
    calc Pool.aliveCount (Pool.applyNoteOns initPool evs)
        ≤ (Pool.applyNoteOns initPool evs).voices.length := List.countP_le_length _
      _ = NUM_VOICES := hlen
  · intro i hfirst
    obtain ⟨h1, h2⟩ := firstNoneIdx_spec p.voices i hfirst
    have hcv : p.createVoice hid ch nt =
        ({ voices := p.voices.set i
             (some ⟨p.nextId, hid.getD (fallbackVoiceId nt ch), ch, nt⟩)
           nextId := p.nextId + 1 }, []) := by
      unfold Pool.createVoice
      rw [hfirst]
    exact ⟨h1, h2, by rw [hcv], by rw [hcv]⟩
  · intro hnone hne
    obtain ⟨q, hq⟩ : ∃ q, minAlive p.voices = some q := by
      cases hv : p.voices with
      | nil => exact absurd hv hne
      | cons o rest =>
        cases o with
        | none =>
          rw [hv] at hnone
          simp [firstNoneIdx] at hnone
        | some w => exact minAlive_cons_some w rest
    obtain ⟨i, old⟩ := q
    obtain ⟨h1, h2⟩ := minAlive_spec p.voices i old hq
    have hcv : p.createVoice hid ch nt =
        ({ voices := p.voices.set i
             (some ⟨p.nextId, hid.getD (fallbackVoiceId nt ch), ch, nt⟩)
           nextId := p.nextId + 1 },
         [⟨old.voice_id, old.channel, old.note⟩]) := by
      unfold Pool.createVoice
      rw [hnone, hq]
    exact ⟨i, old, hq, h1, h2, by rw [hcv], by rw [hcv]⟩

/-- Concrete instance: on a full 3-slot pool the voice with creation id 1
(external id 10) is stolen and its termination notification emitted; on a pool
with a free second slot the new voice lands there with no termination; 20
NoteOns from the initial pool leave at most 16 voices alive. -/
theorem voice_pool_capacity_and_stealing_witness :
    (Pool.createVoice
        ⟨[some ⟨3, 30, 0, 0⟩, some ⟨1, 10, 0, 0⟩, some ⟨2, 20, 0, 0⟩], 7⟩ none 2 64).2 =
      [⟨10, 0, 0⟩] ∧
    (Pool.createVoice ⟨[some ⟨0, 0, 0, 0⟩, none], 5⟩ none 2 64).2 = [] ∧
    Pool.aliveCount
        (Pool.applyNoteOns initPool (List.replicate 20 ⟨none, 0, 60⟩)) ≤ NUM_VOICES := by
  have hsteal := (voice_pool_capacity_and_stealing
    ⟨[some ⟨3, 30, 0, 0⟩, some ⟨1, 10, 0, 0⟩, some ⟨2, 20, 0, 0⟩], 7⟩ none 2 64).2.2
    rfl (by simp)
  obtain ⟨i, old, hq, _, _, _, hev⟩ := hsteal
  have hqc : minAlive [some (⟨3, 30, 0, 0⟩ : PoolVoice), some ⟨1, 10, 0, 0⟩,
      some ⟨2, 20, 0, 0⟩] = some (1, ⟨1, 10, 0, 0⟩) := by decide
  have hio : (i, old) = ((1 : ℕ), (⟨1, 10, 0, 0⟩ : PoolVoice)) := by
    have := hq.symm.trans hqc
    exact Option.some_injective _ this
  have hold : old = ⟨1, 10, 0, 0⟩ := congrArg Prod.snd hio
  refine ⟨?_, ?_, ?_⟩
  · rw [hev, hold]
  · exact ((voice_pool_capacity_and_stealing
      ⟨[some ⟨0, 0, 0, 0⟩, none], 5⟩ none 2 64).2.1 1 rfl).2.2.2
  · exact (voice_pool_capacity_and_stealing initPool none 0 0).1
      (List.replicate 20 ⟨none, 0, 60⟩)

end AddSynth
